import Mathlib

/-!
Verification of the real-time collaborative text editor's core
(Text State Engine / History Log / Permission Gate / Orchestrator).

The Text State Engine is embedded from `server/services/crdtService.js`
(the history-enabled variant shipped with the unit tests): a document
session holds a list of character cells, a version counter, and a bounded
undo/redo history of full-content snapshots.  JavaScript strings are
modelled as `List Char`; the nondeterministic character-id generator
(`Date.now()` + `Math.random()` + client id) is threaded as an opaque
function `gen : Int → String` mapping the cell's intended position to its
id (no claim depends on id contents).  `Array.prototype.sort` with the
comparator `(a, b) => a.position - b.position` is a stable sort by
position; it is modelled by the stable `List.insertionSort`, which agrees
with every stable sort on all inputs.  The permission service is embedded
from `server/services/permissionService.js`, with the store lookup
(`Document.findById`) modelled as an `Except`-wrapped `Option` so that a
thrown lookup error and a missing document are both representable.  The
mutate handler is embedded from
`server/services/socketIOService.js::handleDocumentOperation`, with
outbound socket traffic reified as a list of messages.
-/

namespace RTEditor

/-- One logical character position of the Text State Engine
(`crdtService.js`: the objects produced by `_stringToCRDT` /
`applyOperation`): a unique id, the stored character, and the dense
integer position. -/
structure Cell where
  id : String
  char : Char
  position : Int
deriving DecidableEq

/-- The sort order used by the source's comparator
`(a, b) => a.position - b.position`. -/
def posLE (a b : Cell) : Prop := a.position ≤ b.position

instance : DecidableRel posLE := fun a b => inferInstanceAs (Decidable (a.position ≤ b.position))

instance : IsTotal Cell posLE := ⟨fun a b => Int.le_total a.position b.position⟩

instance : IsTrans Cell posLE := ⟨fun _ _ _ h1 h2 => le_trans h1 h2⟩

/-- Strict position order, used to identify sorted duplicate-free cell lists. -/
def posLT (a b : Cell) : Prop := a.position < b.position

instance : IsAntisymm Cell posLT := ⟨fun _ _ h1 h2 => absurd h2 (not_lt_of_gt h1)⟩

/-- `characters.sort((a, b) => a.position - b.position)`: stable sort by
position. -/
def sortByPos (cs : List Cell) : List Cell := List.insertionSort posLE cs

/-- Cells for the characters of `text`, at consecutive positions starting
at `p`, each with a fresh id.  `cellsFrom gen 0` is `_stringToCRDT`;
`cellsFrom gen position` builds the `newChars` of an insert operation
(`_generateCharId(position + index, clientId)`). -/
def cellsFrom (gen : Int → String) (p : Int) : List Char → List Cell
  | [] => []
  | c :: cs => { id := gen p, char := c, position := p } :: cellsFrom gen (p + 1) cs

/-- `_stringToCRDT(text)`: one cell per character, dense positions `0..n-1`. -/
def stringToCRDT (gen : Int → String) (text : List Char) : List Cell :=
  cellsFrom gen 0 text

/-- `_crdtToString(crdtChars)`: sort by position and concatenate the
character values. -/
def crdtToString (cs : List Cell) : List Char :=
  (sortByPos cs).map (·.char)

/-- One document session of `crdtService.js` (`documentStates` map value):
characters, version, and the shared undo/redo history with its cursor. -/
structure DocState where
  characters : List Cell
  version : Nat
  history : List (List Char)
  historyIndex : Nat
deriving DecidableEq

/-- `initializeDocument(documentId, initialContent)`: no-op when the
session exists, otherwise a fresh session at version 0 whose history is
the single initial snapshot.  The per-document-id map is factored out:
`st` is the session stored for the document id, or `none`. -/
def initializeDocument (gen : Int → String) (st : Option DocState)
    (initialContent : List Char) : DocState :=
  match st with
  | some s => s
  | none =>
    { characters := stringToCRDT gen initialContent
      version := 0
      history := [initialContent]
      historyIndex := 0 }

/-- The history-append logic shared verbatim by `applyOperation` (lines
126-138) and `setContent` (lines 211-222): truncate after the cursor,
suppress a snapshot equal to the entry at the cursor, append, and keep
only the last 50 entries. -/
def recordHistory (hist : List (List Char)) (idx : Nat) (newContent : List Char) :
    List (List Char) × Nat :=
  let h1 := hist.take (idx + 1)
  if h1.get? idx = some newContent then
    (h1, idx)
  else
    let h2 := h1 ++ [newContent]
    if 50 < h2.length then
      let h3 := h2.drop (h2.length - 50)
      (h3, h3.length - 1)
    else
      (h2, h2.length - 1)

/-- `applyOperation(documentId, operation, position, text, clientId)`:
initializes a missing session with empty content, applies an insert or
delete (any other operation kind leaves the cells alone), re-sorts by
position, bumps the version, records the new content into the history,
and returns the new content with the new version. -/
def applyOperation (gen : Int → String) (st : Option DocState) (operation : String)
    (position : Int) (text : List Char) : DocState × List Char × Nat :=
  let state := initializeDocument gen st []
  let characters :=
    if operation = "insert" then
      let newChars := cellsFrom gen position text
      let shifted := state.characters.map fun c =>
        if position ≤ c.position then { c with position := c.position + text.length } else c
      shifted ++ newChars
    else if operation = "delete" then
      let kept := state.characters.filter fun c =>
        decide (c.position < position) || decide (position + (text.length : Int) ≤ c.position)
      kept.map fun c =>
        if position ≤ c.position then { c with position := c.position - text.length } else c
    else
      state.characters
  let sorted := sortByPos characters
  let newContent := crdtToString sorted
  let rec1 := recordHistory state.history state.historyIndex newContent
  ({ characters := sorted
     version := state.version + 1
     history := rec1.1
     historyIndex := rec1.2 },
   newContent, state.version + 1)

/-- `getContent(documentId)`: empty string for an unknown id, otherwise
the sorted character projection. -/
def getContent (st : Option DocState) : List Char :=
  match st with
  | none => []
  | some s => crdtToString s.characters

/-- `setContent(documentId, content, addToHistory)`: on a missing session
it just initializes (and returns); on an existing one it rebuilds the
cells from `content`, bumps the version, and records into history when
`addToHistory` is set. -/
def setContent (gen : Int → String) (st : Option DocState) (content : List Char)
    (addToHistory : Bool) : DocState :=
  match st with
  | none => initializeDocument gen none content
  | some s =>
    let newContent := content
    if addToHistory then
      let rec1 := recordHistory s.history s.historyIndex newContent
      { characters := stringToCRDT gen newContent
        version := s.version + 1
        history := rec1.1
        historyIndex := rec1.2 }
    else
      { characters := stringToCRDT gen newContent
        version := s.version + 1
        history := s.history
        historyIndex := s.historyIndex }

/-- The record returned by `getHistory(documentId)`. -/
structure HistoryView where
  undoStack : List (List Char)
  redoStack : List (List Char)
  canUndo : Bool
  canRedo : Bool
deriving DecidableEq

/-- `getHistory(documentId)`: stacks split at the cursor (undo stack most
recent first) and the two capability flags. -/
def getHistory (st : Option DocState) : HistoryView :=
  match st with
  | none => { undoStack := [], redoStack := [], canUndo := false, canRedo := false }
  | some s =>
    { undoStack := (s.history.take s.historyIndex).reverse
      redoStack := s.history.drop (s.historyIndex + 1)
      canUndo := decide (0 < s.historyIndex)
      canRedo := decide (s.historyIndex + 1 < s.history.length) }

/-- `undo(documentId)`: `null` on a missing session or at cursor 0;
otherwise move the cursor back, rebuild the cells from that snapshot
without touching the history list, bump the version, and return the
snapshot with the recomputed history view.  The first component is the
session state after the call. -/
def undo (gen : Int → String) (st : Option DocState) :
    Option DocState × Option (List Char × HistoryView) :=
  match st with
  | none => (none, none)
  | some s =>
    if s.historyIndex = 0 then (some s, none)
    else
      let idx := s.historyIndex - 1
      let previousContent := (s.history.get? idx).getD []
      let s2 : DocState :=
        { characters := stringToCRDT gen previousContent
          version := s.version + 1
          history := s.history
          historyIndex := idx }
      (some s2, some (previousContent, getHistory (some s2)))

/-- `redo(documentId)`: symmetric to `undo`, bounded by the history tail. -/
def redo (gen : Int → String) (st : Option DocState) :
    Option DocState × Option (List Char × HistoryView) :=
  match st with
  | none => (none, none)
  | some s =>
    if s.history.length ≤ s.historyIndex + 1 then (some s, none)
    else
      let idx := s.historyIndex + 1
      let nextContent := (s.history.get? idx).getD []
      let s2 : DocState :=
        { characters := stringToCRDT gen nextContent
          version := s.version + 1
          history := s.history
          historyIndex := idx }
      (some s2, some (nextContent, getHistory (some s2)))

/-- The density invariant on a session's cell list: the positions, read
off in stored order, are exactly `0, 1, …, n-1` — so the sorted
concatenation of the values is the visible text with every cell
contributing exactly once, no gaps and no duplicate positions. -/
def intRange (p : Int) (n : Nat) : List Int :=
  (List.range n).map fun (i : Nat) => p + (i : Int)

/-- Dense positions `0..n-1` in stored order. -/
def densePositions (cs : List Cell) : Prop :=
  cs.map (·.position) = intRange 0 cs.length

instance (cs : List Cell) : Decidable (densePositions cs) :=
  inferInstanceAs (Decidable (_ = _))

/-- Well-formedness of a session's history: bounded log, cursor in range. -/
def histWF (s : DocState) : Prop :=
  s.history.length ≤ 50 ∧ s.historyIndex < s.history.length

/-- The session states reachable through the engine's public operations,
starting from no session. -/
inductive Reachable (gen : Int → String) : Option DocState → Prop where
  | empty : Reachable gen none
  | initStep (st : Option DocState) (t : List Char) :
      Reachable gen st → Reachable gen (some (initializeDocument gen st t))
  | applyStep (st : Option DocState) (op : String) (pos : Int) (t : List Char) :
      Reachable gen st → Reachable gen (some (applyOperation gen st op pos t).1)
  | setStep (st : Option DocState) (t : List Char) (b : Bool) :
      Reachable gen st → Reachable gen (some (setContent gen st t b))
  | undoStep (st : Option DocState) :
      Reachable gen st → Reachable gen (undo gen st).1
  | redoStep (st : Option DocState) :
      Reachable gen st → Reachable gen (redo gen st).1
  | clearStep (st : Option DocState) :
      Reachable gen st → Reachable gen none

/-- One entry of a document's `permissions` array
(`models/Document.js`). -/
structure PermissionEntry where
  username : String
  role : String
deriving DecidableEq

/-- The fields of a stored document that the permission service reads. -/
structure PermDoc where
  owner : String
  permissions : List PermissionEntry
deriving DecidableEq

/-- The result of `Document.findById`: a thrown lookup error
(`Except.error`), no such document (`.ok none`), or the document. -/
abbrev DocLookup := Except String (Option PermDoc)

/-- `permissionService.checkPermission(documentId, username, action)`:
the whole body runs in a `try` whose `catch` returns `false`; a missing
document returns `false`; the document's owner is granted before the
grant list is consulted; otherwise the grant's role is checked against
the action switch (unknown actions fall to the `default: false`). -/
def checkPermission (lookup : DocLookup) (username action : String) : Bool :=
  match lookup with
  | .error _ => false
  | .ok none => false
  | .ok (some document) =>
    if document.owner = username then true
    else
      match document.permissions.find? (fun p => p.username == username) with
      | none => decide (document.owner = username)
      | some userPermission =>
        let role := userPermission.role
        if action = "read" then
          role == "owner" || role == "editor" || role == "viewer"
        else if action = "write" then
          role == "owner" || role == "editor"
        else if action = "delete" ∨ action = "manage" then
          role == "owner"
        else false

/-- `permissionService.getUserRole(documentId, username)`: `owner` for the
document's owner, else the grant's role, else `null` (also `null` on a
missing document or a thrown lookup error). -/
def getUserRole (lookup : DocLookup) (username : String) : Option String :=
  match lookup with
  | .error _ => none
  | .ok none => none
  | .ok (some document) =>
    if document.owner = username then some "owner"
    else
      match document.permissions.find? (fun p => p.username == username) with
      | none => none
      | some p => some p.role

/-- Modelled from the spec (§4.3): the pure permission table
`authorize(role, action)`; `none` (no resolvable role) allows nothing.
This is the spec-side definition the code's `checkPermission` is compared
against. -/
def authorize (role action : String) : Bool :=
  if role = "owner" then
    action == "read" || action == "write" || action == "delete" || action == "manage"
  else if role = "editor" then
    action == "read" || action == "write"
  else if role = "viewer" then
    action == "read"
  else false

/-- The role the permission service resolves for a user: `getUserRole`
with absence read as the spec's `none` role. -/
def resolvedRole (lookup : DocLookup) (username : String) : String :=
  (getUserRole lookup username).getD "none"

/-- Per-connection client data kept by `socketIOService.js` (`clients`
map value): the resolved username, the document being viewed, and whether
the socket is still connected (`socket.connected`). -/
structure Client where
  username : String
  documentId : Option String
  connected : Bool
deriving DecidableEq

/-- Outbound socket traffic, reified: an `error` event to one client's
socket, or a room broadcast for a document (with the optionally excluded
originator). -/
inductive OutMsg where
  | errorTo (clientId : String) (message : String)
  | broadcast (documentId : String) (mtype : String) (content : List Char)
      (excluded : Option String)
deriving DecidableEq

/-- Association-list lookup standing for `Map.prototype.get`. -/
def lookupEntry {α : Type} (m : List (String × α)) (k : String) : Option α :=
  (m.find? (fun kv => kv.1 == k)).map (·.2)

/-- Association-list update standing for `Map.prototype.set`. -/
def setEntry {α : Type} (m : List (String × α)) (k : String) (v : α) :
    List (String × α) :=
  if (m.find? (fun kv => kv.1 == k)).isSome then
    m.map fun kv => if kv.1 == k then (k, v) else kv
  else
    m ++ [(k, v)]

/-- The mutable state `handleDocumentOperation` touches: the clients map,
the per-document client sets, and the CRDT service's `documentStates`. -/
structure SocketState where
  clients : List (String × Client)
  documentClients : List (String × List String)
  documentStates : List (String × DocState)
deriving DecidableEq

/-- `sendError(socket, message)`: an `error` event, emitted only while the
socket is still connected. -/
def sendError (client : Client) (clientId message : String) : List OutMsg :=
  if client.connected then [OutMsg.errorTo clientId message] else []

/-- `broadcastToDocument(documentId, type, data, excludeClientId)`: a room
broadcast, a silent no-op when the document has no client set. -/
def broadcastToDocument (st : SocketState) (documentId mtype : String)
    (content : List Char) (excludeClientId : Option String) : List OutMsg :=
  match lookupEntry st.documentClients documentId with
  | none => []
  | some _ => [OutMsg.broadcast documentId mtype content excludeClientId]

/-- `socketIOService.handleDocumentOperation(clientId, operation)`:
silently ignore unknown clients and clients with no open document; check
`write` permission and on denial reply an error to the sender only;
otherwise apply the CRDT operation and broadcast the result to the
document's room excluding the sender.  `docs` is the document store
consulted by the permission check. -/
def handleDocumentOperation (gen : Int → String) (docs : String → DocLookup)
    (st : SocketState) (clientId opType : String) (position : Int)
    (text : List Char) : SocketState × List OutMsg :=
  match lookupEntry st.clients clientId with
  | none => (st, [])
  | some client =>
    match client.documentId with
    | none => (st, [])
    | some documentId =>
      if checkPermission (docs documentId) client.username "write" then
        let docSt := lookupEntry st.documentStates documentId
        let applied := applyOperation gen docSt opType position text
        ({ st with documentStates := setEntry st.documentStates documentId applied.1 },
         broadcastToDocument st documentId "document_operation" applied.2.1
           (some clientId))
      else
        (st, sendError client clientId "Insufficient permissions to edit document")

/-- The legacy session record of `server/services/crdtService.js` (the
variant without the history log). -/
structure ServerDocState where
  characters : List Cell
  version : Nat
deriving DecidableEq

/-- `setContent` of the legacy `server/services/crdtService.js`: always
re-derives the cells and sets the version to the previous version (0 when
absent) plus one. -/
def serverSetContent (gen : Int → String) (st : Option ServerDocState)
    (content : List Char) : ServerDocState :=
  { characters := stringToCRDT gen content
    version := (match st with | some s => s.version | none => 0) + 1 }

/-- A fixed id generator for concrete evaluations. -/
def gen0 : Int → String := fun _ => ""

/-! ### Infrastructure lemmas about the embedding -/

theorem intRange_zero (p : Int) : intRange p 0 = [] := rfl

theorem intRange_cons (p : Int) (n : Nat) :
    intRange p (n + 1) = p :: intRange (p + 1) n := by
  unfold intRange
  rw [List.range_succ_eq_map, List.map_cons, List.map_map]
  refine congrArg₂ _ (by simp) (List.map_congr_left fun i _ => ?_)
  simp only [Function.comp_apply, Nat.succ_eq_add_one]
  push_cast
  ring

theorem intRange_append (p : Int) (m k : Nat) :
    intRange p (m + k) = intRange p m ++ intRange (p + m) k := by
  induction m generalizing p with
  | zero => simp [intRange_zero, Nat.zero_add]
  | succ m ih =>
    have h1 : m + 1 + k = (m + k) + 1 := by omega
    rw [h1, intRange_cons, intRange_cons, ih (p + 1)]
    simp [List.cons_append]
    ring_nf

theorem mem_intRange {x p : Int} {n : Nat} :
    x ∈ intRange p n ↔ p ≤ x ∧ x < p + n := by
  unfold intRange
  simp only [List.mem_map, List.mem_range]
  constructor
  · rintro ⟨i, hi, rfl⟩; omega
  · rintro ⟨h1, h2⟩
    refine ⟨(x - p).toNat, by omega, by omega⟩

theorem length_intRange (p : Int) (n : Nat) : (intRange p n).length = n := by
  simp [intRange]

theorem pairwise_lt_intRange (p : Int) (n : Nat) :
    List.Pairwise (· < ·) (intRange p n) := by
  unfold intRange
  rw [List.pairwise_map]
  exact (List.pairwise_lt_range n).imp (fun h => by omega)

theorem pairwise_le_intRange (p : Int) (n : Nat) :
    List.Pairwise (· ≤ ·) (intRange p n) :=
  (pairwise_lt_intRange p n).imp le_of_lt

theorem nodup_intRange (p : Int) (n : Nat) : (intRange p n).Nodup :=
  (pairwise_lt_intRange p n).imp ne_of_lt

theorem map_add_intRange (p d : Int) (n : Nat) :
    (intRange p n).map (fun x => x + d) = intRange (p + d) n := by
  unfold intRange
  rw [List.map_map]
  exact List.map_congr_left fun i _ => by simp; ring

theorem map_char_cellsFrom (gen : Int → String) (p : Int) (t : List Char) :
    (cellsFrom gen p t).map (·.char) = t := by
  induction t generalizing p with
  | nil => rfl
  | cons c cs ih => simp [cellsFrom, ih]

theorem map_position_cellsFrom (gen : Int → String) (p : Int) (t : List Char) :
    (cellsFrom gen p t).map (·.position) = intRange p t.length := by
  induction t generalizing p with
  | nil => rfl
  | cons c cs ih => simp [cellsFrom, ih, intRange_cons]

theorem length_cellsFrom (gen : Int → String) (p : Int) (t : List Char) :
    (cellsFrom gen p t).length = t.length := by
  induction t generalizing p with
  | nil => rfl
  | cons c cs ih => simp [cellsFrom, ih]

theorem pairwise_le_of_map_position {cs : List Cell} {l : List Int}
    (h : cs.map (·.position) = l) (hl : List.Pairwise (· ≤ ·) l) :
    List.Pairwise posLE cs := by
  rw [← h] at hl
  exact (List.pairwise_map.mp hl).imp fun hab => hab

theorem pairwise_lt_of_map_position {cs : List Cell} {l : List Int}
    (h : cs.map (·.position) = l) (hl : List.Pairwise (· < ·) l) :
    List.Pairwise posLT cs := by
  rw [← h] at hl
  exact (List.pairwise_map.mp hl).imp fun hab => hab

theorem sortByPos_eq_self {cs : List Cell} (h : List.Pairwise posLE cs) :
    sortByPos cs = cs :=
  List.Sorted.insertionSort_eq h

theorem sortByPos_perm (cs : List Cell) : (sortByPos cs).Perm cs :=
  List.perm_insertionSort posLE cs

theorem sortByPos_sorted (cs : List Cell) : List.Pairwise posLE (sortByPos cs) :=
  List.sorted_insertionSort posLE cs

theorem crdtToString_stringToCRDT (gen : Int → String) (t : List Char) :
    crdtToString (stringToCRDT gen t) = t := by
  unfold crdtToString stringToCRDT
  rw [sortByPos_eq_self (pairwise_le_of_map_position
    (map_position_cellsFrom gen 0 t) (pairwise_le_intRange 0 t.length))]
  exact map_char_cellsFrom gen 0 t

theorem densePositions_stringToCRDT (gen : Int → String) (t : List Char) :
    densePositions (stringToCRDT gen t) := by
  unfold densePositions stringToCRDT
  rw [length_cellsFrom]
  exact map_position_cellsFrom gen 0 t

/-- A permutation whose positions are a permutation of a dense range is,
once sorted by position, exactly that dense range in order. -/
theorem sortByPos_map_position_of_perm {cs : List Cell} {m : Nat}
    (h : (cs.map (·.position)).Perm (intRange 0 m)) :
    (sortByPos cs).map (·.position) = intRange 0 m := by
  have hperm : ((sortByPos cs).map (·.position)).Perm (intRange 0 m) :=
    (List.Perm.map _ (sortByPos_perm cs)).trans h
  refine List.eq_of_perm_of_sorted (r := ((· ≤ ·) : Int → Int → Prop)) hperm ?_ ?_
  · exact List.pairwise_map.mpr ((sortByPos_sorted cs).imp fun hab => hab)
  · exact pairwise_le_intRange 0 m

theorem densePositions_sortByPos_of_perm {cs : List Cell} {m : Nat}
    (h : (cs.map (·.position)).Perm (intRange 0 m)) :
    densePositions (sortByPos cs) := by
  have hlen : (sortByPos cs).length = m := by
    have := h.length_eq
    simp only [List.length_map, length_intRange] at this
    simpa [sortByPos, List.length_insertionSort] using this
  unfold densePositions
  rw [hlen]
  exact sortByPos_map_position_of_perm h

theorem map_position_shift_insert (cs : List Cell) (pos : Int) (L : Nat) :
    ((cs.map fun c =>
        if pos ≤ c.position then { c with position := c.position + (L : Int) } else c).map
      (·.position))
      = (cs.map (·.position)).map fun x => if pos ≤ x then x + (L : Int) else x := by
  simp only [List.map_map]
  exact List.map_congr_left fun c _ => by by_cases h : pos ≤ c.position <;> simp [h]

theorem map_position_shift_delete (cs : List Cell) (pos : Int) (L : Nat) :
    ((cs.map fun c =>
        if pos ≤ c.position then { c with position := c.position - (L : Int) } else c).map
      (·.position))
      = (cs.map (·.position)).map fun x => if pos ≤ x then x - (L : Int) else x := by
  simp only [List.map_map]
  exact List.map_congr_left fun c _ => by by_cases h : pos ≤ c.position <;> simp [h]

theorem map_position_filter (cs : List Cell) (q : Int → Bool) :
    (cs.filter fun c => q c.position).map (·.position) = (cs.map (·.position)).filter q := by
  rw [List.filter_map]
  rfl

theorem intRange_split (p n : Nat) (hp : p ≤ n) :
    intRange 0 n = intRange 0 p ++ intRange p (n - p) := by
  have h1 : n = p + (n - p) := by omega
  conv_lhs => rw [h1]
  rw [intRange_append]
  simp only [zero_add]

/-- Inserting `L` fresh positions at `pos ∈ [0, n]` turns the dense range
`0..n-1` (old positions shifted right from `pos`) into a permutation of
the dense range `0..n+L-1`. -/
theorem insert_positions_perm (n L : Nat) (pos : Int) (h0 : 0 ≤ pos)
    (hn : pos ≤ (n : Int)) :
    (((intRange 0 n).map fun x => if pos ≤ x then x + (L : Int) else x)
        ++ intRange pos L).Perm
      (intRange 0 (n + L)) := by
  obtain ⟨p, rfl⟩ : ∃ p : Nat, pos = (p : Int) := ⟨pos.toNat, by omega⟩
  have hpn : p ≤ n := by exact_mod_cast hn
  have hmap1 : (intRange 0 p).map (fun x => if (p : Int) ≤ x then x + (L : Int) else x)
      = intRange 0 p := by
    rw [List.map_congr_left (g := fun x => x)
      (fun x hx => by have h := mem_intRange.mp hx; rw [if_neg (by omega)])]
    exact List.map_id' _
  have hmap2 : (intRange p (n - p)).map
      (fun x => if (p : Int) ≤ x then x + (L : Int) else x)
      = intRange ((p : Int) + L) (n - p) := by
    rw [List.map_congr_left (g := fun x => x + (L : Int))
      (fun x hx => by have h := mem_intRange.mp hx; rw [if_pos (by omega)])]
    exact map_add_intRange _ _ _
  have hRHS : intRange 0 (n + L)
      = intRange 0 p ++ (intRange p L ++ intRange ((p : Int) + L) (n - p)) := by
    have h2 : n + L = p + (L + (n - p)) := by omega
    rw [h2, intRange_append, intRange_append]
    simp only [zero_add]
  rw [intRange_split p n hpn, List.map_append, hmap1, hmap2, hRHS, List.append_assoc]
  exact List.Perm.append_left _ List.perm_append_comm

/-- Deleting the positions in `[pos, pos+L)` from the dense range
`0..n-1` (survivors shifted left from `pos`) yields a dense range again,
for any `pos ≥ 0` — overshooting the end only clamps the removal. -/
theorem delete_positions_eq (n L : Nat) (pos : Int) (h0 : 0 ≤ pos) :
    ∃ m : Nat,
      (((intRange 0 n).filter fun x =>
          decide (x < pos) || decide (pos + (L : Int) ≤ x)).map
        fun x => if pos ≤ x then x - (L : Int) else x) = intRange 0 m := by
  obtain ⟨p, rfl⟩ : ∃ p : Nat, pos = (p : Int) := ⟨pos.toNat, by omega⟩
  by_cases hA : n ≤ p
  · refine ⟨n, ?_⟩
    rw [List.filter_eq_self.mpr (fun x hx => by
      have h := mem_intRange.mp hx
      simp only [Bool.or_eq_true, decide_eq_true_eq]
      omega)]
    rw [List.map_congr_left (g := fun x => x)
      (fun x hx => by have h := mem_intRange.mp hx; rw [if_neg (by omega)])]
    exact List.map_id' _
  · by_cases hB : n ≤ p + L
    · refine ⟨p, ?_⟩
      rw [intRange_split p n (by omega), List.filter_append]
      rw [List.filter_eq_self.mpr (fun x hx => by
        have h := mem_intRange.mp hx
        simp only [Bool.or_eq_true, decide_eq_true_eq]
        omega)]
      rw [List.filter_eq_nil_iff.mpr (fun x hx => by
        have h := mem_intRange.mp hx
        simp only [Bool.or_eq_true, decide_eq_true_eq]
        omega)]
      rw [List.append_nil]
      rw [List.map_congr_left (g := fun x => x)
        (fun x hx => by have h := mem_intRange.mp hx; rw [if_neg (by omega)])]
      exact List.map_id' _
    · refine ⟨p + (n - p - L), ?_⟩
      have hsplit : intRange 0 n
          = intRange 0 p ++ (intRange p L ++ intRange ((p : Int) + L) (n - p - L)) := by
        have h2 : n = p + (L + (n - p - L)) := by omega
        conv_lhs => rw [h2]
        rw [intRange_append, intRange_append]
        simp only [zero_add]
      rw [hsplit, List.filter_append, List.filter_append]
      rw [List.filter_eq_self.mpr (fun x hx => by
        have h := mem_intRange.mp hx
        simp only [Bool.or_eq_true, decide_eq_true_eq]
        omega)]
      rw [List.filter_eq_nil_iff.mpr (fun x hx => by
        have h := mem_intRange.mp hx
        simp only [Bool.or_eq_true, decide_eq_true_eq]
        omega)]
      rw [List.filter_eq_self.mpr (fun x hx => by
        have h := mem_intRange.mp hx
        simp only [Bool.or_eq_true, decide_eq_true_eq]
        omega)]
      rw [List.nil_append, List.map_append]
      rw [List.map_congr_left (l := intRange 0 p) (g := fun x => x)
        (fun x hx => by have h := mem_intRange.mp hx; rw [if_neg (by omega)])]
      rw [List.map_congr_left (l := intRange ((p : Int) + L) (n - p - L))
        (g := fun x => x + (-(L : Int)))
        (fun x hx => by
          have h := mem_intRange.mp hx
          rw [if_pos (by omega)]
          ring)]
      rw [List.map_id', map_add_intRange]
      have h3 : (p : Int) + L + -(L : Int) = (p : Int) := by ring
      rw [h3, intRange_append]
      simp only [zero_add]

/-- The insert branch of `applyOperation`, expanded. -/
theorem applyOperation_insert_characters (gen : Int → String) (s : DocState)
    (pos : Int) (text : List Char) :
    (applyOperation gen (some s) "insert" pos text).1.characters
      = sortByPos ((s.characters.map fun c =>
          if pos ≤ c.position then { c with position := c.position + (text.length : Int) }
          else c) ++ cellsFrom gen pos text) := by
  simp [applyOperation, initializeDocument]

/-- The delete branch of `applyOperation`, expanded. -/
theorem applyOperation_delete_characters (gen : Int → String) (s : DocState)
    (pos : Int) (text : List Char) :
    (applyOperation gen (some s) "delete" pos text).1.characters
      = sortByPos ((s.characters.filter fun c =>
          decide (c.position < pos) || decide (pos + (text.length : Int) ≤ c.position)).map
          fun c =>
            if pos ≤ c.position then { c with position := c.position - (text.length : Int) }
            else c) := by
  simp [applyOperation, initializeDocument]

/-- In-range insert preserves density. -/
theorem dense_insert (gen : Int → String) (s : DocState) (pos : Int) (text : List Char)
    (hd : densePositions s.characters) (h0 : 0 ≤ pos)
    (hn : pos ≤ (s.characters.length : Int)) :
    densePositions ((applyOperation gen (some s) "insert" pos text).1.characters) := by
  rw [applyOperation_insert_characters]
  apply densePositions_sortByPos_of_perm (m := s.characters.length + text.length)
  rw [List.map_append, map_position_shift_insert, hd, map_position_cellsFrom]
  have hl : (s.characters.map (·.position)).length = s.characters.length := by
    simp
  rw [densePositions] at hd
  exact insert_positions_perm s.characters.length text.length pos h0 hn

/-- Nonnegative-position delete preserves density. -/
theorem dense_delete (gen : Int → String) (s : DocState) (pos : Int) (text : List Char)
    (hd : densePositions s.characters) (h0 : 0 ≤ pos) :
    densePositions ((applyOperation gen (some s) "delete" pos text).1.characters) := by
  rw [applyOperation_delete_characters]
  obtain ⟨m, hm⟩ := delete_positions_eq s.characters.length text.length pos h0
  apply densePositions_sortByPos_of_perm (m := m)
  rw [map_position_shift_delete,
    map_position_filter s.characters
      (fun x => decide (x < pos) || decide (pos + (text.length : Int) ≤ x)),
    hd, hm]

theorem mem_cellsFrom {gen : Int → String} {p : Int} {t : List Char} {c : Cell}
    (h : c ∈ cellsFrom gen p t) : p ≤ c.position ∧ c.position < p + t.length := by
  induction t generalizing p with
  | nil => cases h
  | cons a t ih =>
    rcases List.mem_cons.mp h with h1 | h1
    · subst h1
      refine ⟨by simp, by simp⟩
    · obtain ⟨ha, hb⟩ := ih h1
      simp only [List.length_cons]
      push_cast
      constructor <;> omega

theorem pairwise_lt_of_le_of_nodup {cs : List Cell}
    (h1 : List.Pairwise posLE cs) (h2 : (cs.map (·.position)).Nodup) :
    List.Pairwise posLT cs :=
  (h1.and (List.pairwise_map.mp h2)).imp fun hab => lt_of_le_of_ne hab.1 hab.2

theorem applyOperation_content_eq (gen : Int → String) (st : Option DocState)
    (op : String) (pos : Int) (text : List Char) :
    (applyOperation gen st op pos text).2.1
      = crdtToString ((applyOperation gen st op pos text).1.characters) := rfl

/-- Undoing an insert: deleting the same text at the same position removes
exactly the freshly inserted cells and shifts the survivors back, so the
cell list returns to its pre-insert value. -/
theorem delete_after_insert_characters (gen : Int → String) (s : DocState)
    (pos : Int) (text : List Char) (hd : densePositions s.characters) :
    (applyOperation gen (some (applyOperation gen (some s) "insert" pos text).1)
        "delete" pos text).1.characters = s.characters := by
  have hS1 := applyOperation_insert_characters gen s pos text
  have hXperm : ((applyOperation gen (some s) "insert" pos text).1.characters).Perm
      ((s.characters.map fun c =>
        if pos ≤ c.position then { c with position := c.position + (text.length : Int) }
        else c) ++ cellsFrom gen pos text) := by
    rw [hS1]
    exact sortByPos_perm _
  have hfilX : ((s.characters.map fun c =>
        if pos ≤ c.position then { c with position := c.position + (text.length : Int) }
        else c) ++ cellsFrom gen pos text).filter
      (fun c => decide (c.position < pos) || decide (pos + (text.length : Int) ≤ c.position))
      = s.characters.map fun c =>
          if pos ≤ c.position then { c with position := c.position + (text.length : Int) }
          else c := by
    rw [List.filter_append]
    rw [List.filter_eq_self.mpr (fun c hc => by
      obtain ⟨c0, _, rfl⟩ := List.mem_map.mp hc
      by_cases h : pos ≤ c0.position
      · rw [if_pos h]
        dsimp only
        simp only [Bool.or_eq_true, decide_eq_true_eq]
        omega
      · rw [if_neg h]
        simp only [Bool.or_eq_true, decide_eq_true_eq]
        omega)]
    rw [List.filter_eq_nil_iff.mpr (fun c hc => by
      obtain ⟨hlo, hhi⟩ := mem_cellsFrom hc
      simp only [Bool.or_eq_true, decide_eq_true_eq]
      push_neg
      exact ⟨hlo, by omega⟩)]
    rw [List.append_nil]
  have hmapShift : ((s.characters.map fun c =>
        if pos ≤ c.position then { c with position := c.position + (text.length : Int) }
        else c).map fun c =>
          if pos ≤ c.position then { c with position := c.position - (text.length : Int) }
          else c)
      = s.characters := by
    rw [List.map_map]
    rw [List.map_congr_left (g := fun c => c) (fun c _ => by
      cases c with
      | mk i ch p =>
        dsimp only [Function.comp]
        by_cases h : pos ≤ p
        · rw [if_pos h]
          dsimp only
          rw [if_pos (show pos ≤ p + (text.length : Int) by omega)]
          simp only [add_sub_cancel_right]
        · rw [if_neg h]
          dsimp only
          rw [if_neg h])]
    exact List.map_id' _
  have hYperm : ((((applyOperation gen (some s) "insert" pos text).1.characters).filter
      (fun c => decide (c.position < pos) || decide (pos + (text.length : Int) ≤ c.position))).map
      (fun c =>
        if pos ≤ c.position then { c with position := c.position - (text.length : Int) }
        else c)).Perm s.characters := by
    have h2 := (hXperm.filter
      (fun c => decide (c.position < pos) || decide (pos + (text.length : Int) ≤ c.position))).map
      (fun c =>
        if pos ≤ c.position then { c with position := c.position - (text.length : Int) }
        else c)
    rw [hfilX, hmapShift] at h2
    exact h2
  rw [applyOperation_delete_characters]
  refine List.eq_of_perm_of_sorted (r := posLT) ((sortByPos_perm _).trans hYperm) ?_ ?_
  · refine pairwise_lt_of_le_of_nodup (sortByPos_sorted _) ?_
    have hperm2 := ((sortByPos_perm _).trans hYperm).map (·.position)
    refine hperm2.nodup_iff.mpr ?_
    rw [hd]
    exact nodup_intRange 0 _
  · exact pairwise_lt_of_map_position hd (pairwise_lt_intRange 0 _)

/-! ### Theorems for the claims -/

/-- C1 counterexample.  The density predicate is NOT preserved by
`applyOperation` at arbitrary positions: starting from the dense
single-cell document "A", inserting "B" at position 5 leaves the cell
positions `[0, 5]` — a gap, so the invariant predicate fails. -/
theorem insert_out_of_range_breaks_density :
    densePositions (initializeDocument gen0 none ['A']).characters
    ∧ ¬ densePositions ((applyOperation gen0 (some (initializeDocument gen0 none ['A']))
        "insert" 5 ['B']).1.characters) := by
  constructor <;> decide

/-- C1 amended.  The density predicate (positions are exactly `0..n-1` in
stored order, so the position-sorted value concatenation is the visible
text with no gaps and no duplicates) is established by
`initializeDocument` and by `setContent` on any state, is preserved by
`undo` and `redo`, and is preserved by `applyOperation` for an insert at
any position `0 ≤ pos ≤ length` and for a delete at any position
`pos ≥ 0` (a delete range overshooting the end only clamps); an insert
beyond the current length or any negative-position operation can break
it. -/
theorem dense_invariant_preserved_in_range (gen : Int → String) (s : DocState)
    (st : Option DocState) (t text : List Char) (pos : Int) (b : Bool) :
    densePositions (initializeDocument gen none t).characters
    ∧ (densePositions s.characters → 0 ≤ pos → pos ≤ (s.characters.length : Int) →
        densePositions ((applyOperation gen (some s) "insert" pos text).1.characters))
    ∧ (densePositions s.characters → 0 ≤ pos →
        densePositions ((applyOperation gen (some s) "delete" pos text).1.characters))
    ∧ densePositions ((setContent gen st t b).characters)
    ∧ (densePositions s.characters →
        ∀ s2, (undo gen (some s)).1 = some s2 → densePositions s2.characters)
    ∧ (densePositions s.characters →
        ∀ s2, (redo gen (some s)).1 = some s2 → densePositions s2.characters) := by
  refine ⟨densePositions_stringToCRDT gen t,
    fun hd h0 hn => dense_insert gen s pos text hd h0 hn,
    fun hd h0 => dense_delete gen s pos text hd h0, ?_, ?_, ?_⟩
  · cases st with
    | none => exact densePositions_stringToCRDT gen t
    | some s0 => cases b <;> exact densePositions_stringToCRDT gen t
  · intro hd s2 h
    by_cases hidx : s.historyIndex = 0
    · simp only [undo, if_pos hidx, Option.some.injEq] at h
      rw [← h]
      exact hd
    · simp only [undo, if_neg hidx, Option.some.injEq] at h
      rw [← h]
      exact densePositions_stringToCRDT gen _
  · intro hd s2 h
    by_cases hidx : s.history.length ≤ s.historyIndex + 1
    · simp only [redo, if_pos hidx, Option.some.injEq] at h
      rw [← h]
      exact hd
    · simp only [redo, if_neg hidx, Option.some.injEq] at h
      rw [← h]
      exact densePositions_stringToCRDT gen _

/-- Witness for C1 (amended): in-range insert and delete on a concrete
dense two-cell document keep the positions dense. -/
theorem dense_invariant_preserved_in_range_witness :
    densePositions ((applyOperation gen0 (some (initializeDocument gen0 none ['a', 'b']))
        "insert" 1 ['x', 'y']).1.characters)
    ∧ densePositions ((applyOperation gen0 (some (initializeDocument gen0 none ['a', 'b']))
        "delete" 1 ['x', 'y', 'z']).1.characters) :=
  ⟨(dense_invariant_preserved_in_range gen0 (initializeDocument gen0 none ['a', 'b'])
      none [] ['x', 'y'] 1 true).2.1 (by decide) (by decide) (by decide),
   (dense_invariant_preserved_in_range gen0 (initializeDocument gen0 none ['a', 'b'])
      none [] ['x', 'y', 'z'] 1 true).2.2.1 (by decide) (by decide)⟩

/-- C3.  From any dense document state, `insert(pos, s)` followed by
`delete(pos, s)` (for the same position and text, at any integer
position) restores the content exactly: both the content returned by the
delete and the stored projection equal the pre-insert content. -/
theorem insert_then_delete_restores_content (gen : Int → String) (s : DocState)
    (pos : Int) (text : List Char) (hd : densePositions s.characters) :
    getContent (some (applyOperation gen
        (some (applyOperation gen (some s) "insert" pos text).1) "delete" pos text).1)
      = getContent (some s)
    ∧ (applyOperation gen
        (some (applyOperation gen (some s) "insert" pos text).1) "delete" pos text).2.1
      = getContent (some s) := by
  have hchars := delete_after_insert_characters gen s pos text hd
  constructor
  · show crdtToString ((applyOperation gen
        (some (applyOperation gen (some s) "insert" pos text).1) "delete" pos text).1.characters)
      = crdtToString s.characters
    rw [hchars]
  · rw [applyOperation_content_eq]
    show crdtToString ((applyOperation gen
        (some (applyOperation gen (some s) "insert" pos text).1) "delete" pos text).1.characters)
      = crdtToString s.characters
    rw [hchars]

/-- Witness for C3: insert "xy" at 1 into "Hi", delete it again, back to
"Hi". -/
theorem insert_then_delete_restores_content_witness :
    getContent (some (applyOperation gen0
        (some (applyOperation gen0 (some (initializeDocument gen0 none ['H', 'i']))
          "insert" 1 ['x', 'y']).1) "delete" 1 ['x', 'y']).1)
      = getContent (some (initializeDocument gen0 none ['H', 'i']))
    ∧ (applyOperation gen0
        (some (applyOperation gen0 (some (initializeDocument gen0 none ['H', 'i']))
          "insert" 1 ['x', 'y']).1) "delete" 1 ['x', 'y']).2.1
      = getContent (some (initializeDocument gen0 none ['H', 'i'])) :=
  insert_then_delete_restores_content gen0 (initializeDocument gen0 none ['H', 'i'])
    1 ['x', 'y'] (by decide)

/-- C2.  For every text T and a document id with no existing session,
`initializeDocument` followed by `getContent` returns exactly T, and the
created session has version 0. -/
theorem initialize_roundtrip_content_version (gen : Int → String) (t : List Char) :
    getContent (some (initializeDocument gen none t)) = t
    ∧ (initializeDocument gen none t).version = 0 := by
  constructor
  · show crdtToString (stringToCRDT gen t) = t
    exact crdtToString_stringToCRDT gen t
  · rfl

/-- C8 counterexample.  `setContent` on a document id with no session does
not increment any version: it creates the session at version 0 (the code
falls back to `initializeDocument` and returns), so the version observable
afterwards is 0, not strictly greater than anything observed before. -/
theorem setContent_fresh_session_version_zero :
    (setContent gen0 none ['a'] true).version = 0 := by decide

/-- C8 amended.  When a session already exists, `setContent` increments
its version by exactly 1 (for either value of the history flag); when no
session exists, it initializes the session at version 0 with no increment.
The legacy `server/services/crdtService.js` variant, by contrast, always
sets the version to the previous one (0 when absent) plus 1. -/
theorem setContent_version_behavior (gen : Int → String) (s : DocState)
    (c : List Char) (b : Bool) :
    (setContent gen (some s) c b).version = s.version + 1
    ∧ (setContent gen none c b).version = 0
    ∧ (∀ sv : ServerDocState, (serverSetContent gen (some sv) c).version = sv.version + 1)
    ∧ (serverSetContent gen none c).version = 1 := by
  refine ⟨?_, rfl, fun sv => rfl, rfl⟩
  cases b <;> rfl

/-- C10.  The permission check never escapes an exception: a thrown store
lookup is caught and a missing document is handled, and in both cases
`checkPermission` returns `false` (deny by default), for every username
and every action. -/
theorem checkPermission_denies_on_missing_or_error (e username action : String) :
    checkPermission (.error e) username action = false
    ∧ checkPermission (.ok none) username action = false :=
  ⟨rfl, rfl⟩

/-- C9.  For any operation kind other than `insert` and `delete`,
`applyOperation` on a session whose cells are stored sorted leaves the
cell sequence unchanged, returns the session's prior content, and still
increments the version by exactly 1: an unrecognized kind is not
rejected. -/
theorem applyOperation_unknown_kind_frame (gen : Int → String) (s : DocState)
    (op : String) (pos : Int) (text : List Char)
    (hs : List.Pairwise posLE s.characters)
    (h1 : op ≠ "insert") (h2 : op ≠ "delete") :
    (applyOperation gen (some s) op pos text).1.characters = s.characters
    ∧ (applyOperation gen (some s) op pos text).2.1 = getContent (some s)
    ∧ (applyOperation gen (some s) op pos text).2.2 = s.version + 1 := by
  have hinit : initializeDocument gen (some s) [] = s := rfl
  simp only [applyOperation, hinit, if_neg h1, if_neg h2, sortByPos_eq_self hs]
  refine ⟨?_, ?_, ?_⟩ <;> trivial

/-- Witness for C9 at a concrete session and the unrecognized kind
`style`. -/
theorem applyOperation_unknown_kind_frame_witness :
    (applyOperation gen0 (some (initializeDocument gen0 none ['h', 'i'])) "style" 0
      ['z']).1.characters = (initializeDocument gen0 none ['h', 'i']).characters
    ∧ (applyOperation gen0 (some (initializeDocument gen0 none ['h', 'i'])) "style" 0
        ['z']).2.1 = getContent (some (initializeDocument gen0 none ['h', 'i']))
    ∧ (applyOperation gen0 (some (initializeDocument gen0 none ['h', 'i'])) "style" 0
        ['z']).2.2 = (initializeDocument gen0 none ['h', 'i']).version + 1 :=
  applyOperation_unknown_kind_frame gen0 (initializeDocument gen0 none ['h', 'i'])
    "style" 0 ['z'] (by decide) (by decide) (by decide)

/-- C5.  On an existing session with a valid history cursor: `undo` at
cursor 0 returns none and leaves the session untouched; otherwise it
moves the cursor back by one, rebuilds the cells from the snapshot at the
new cursor without touching the history list, increments the version by
1, and returns that snapshot together with the recomputed flags
(`canUndo` iff the new cursor is still positive, `canRedo` always true
after an undo). -/
theorem undo_spec (gen : Int → String) (s : DocState)
    (hwf : s.historyIndex < s.history.length) :
    (s.historyIndex = 0 → undo gen (some s) = (some s, none))
    ∧ (0 < s.historyIndex →
        undo gen (some s) =
          (some { characters := stringToCRDT gen ((s.history.get? (s.historyIndex - 1)).getD [])
                  version := s.version + 1
                  history := s.history
                  historyIndex := s.historyIndex - 1 },
           some ((s.history.get? (s.historyIndex - 1)).getD [],
             { undoStack := (s.history.take (s.historyIndex - 1)).reverse
               redoStack := s.history.drop s.historyIndex
               canUndo := decide (1 < s.historyIndex)
               canRedo := true }))) := by
  constructor
  · intro h0
    simp [undo, h0]
  · intro hpos
    have h1 : s.historyIndex - 1 + 1 = s.historyIndex := by omega
    have h2 : s.historyIndex ≠ 0 := by omega
    have hcanUndo : decide (0 < s.historyIndex - 1) = decide (1 < s.historyIndex) := by
      rw [decide_eq_decide]; omega
    simp only [undo, if_neg h2, getHistory]
    rw [h1, hcanUndo, decide_eq_true hwf]

/-- Witness for C5 at a concrete two-snapshot session with the cursor at
the tail. -/
theorem undo_spec_witness :
    undo gen0 (some ⟨stringToCRDT gen0 ['a', 'b'], 5, [['a'], ['a', 'b']], 1⟩) =
      (some ⟨stringToCRDT gen0 ['a'], 6, [['a'], ['a', 'b']], 0⟩,
       some (['a'], ⟨[], [['a', 'b']], false, true⟩)) :=
  (((undo_spec gen0 ⟨stringToCRDT gen0 ['a', 'b'], 5, [['a'], ['a', 'b']], 1⟩
    (by decide)).2 (by decide)).trans (by decide))

/-- C4.  With the resolved role (owner for the document's declared owner,
else the grant's role, else `none`) in the four-role set, the permission
check returns exactly the §4.3 table for each of the four actions, and
the declared owner is granted regardless of any stored grant entry. -/
theorem checkPermission_matches_authorize (document : PermDoc) (username action : String)
    (ha : action = "read" ∨ action = "write" ∨ action = "delete" ∨ action = "manage")
    (hr : resolvedRole (.ok (some document)) username = "owner"
        ∨ resolvedRole (.ok (some document)) username = "editor"
        ∨ resolvedRole (.ok (some document)) username = "viewer"
        ∨ resolvedRole (.ok (some document)) username = "none") :
    checkPermission (.ok (some document)) username action
      = authorize (resolvedRole (.ok (some document)) username) action
    ∧ (document.owner = username →
        checkPermission (.ok (some document)) username action = true) := by
  by_cases ho : document.owner = username
  · have hrole : resolvedRole (.ok (some document)) username = "owner" := by
      simp [resolvedRole, getUserRole, ho]
    constructor
    · rw [hrole]
      rcases ha with rfl | rfl | rfl | rfl <;> simp [checkPermission, authorize, ho]
    · intro _
      simp [checkPermission, ho]
  · cases hf : document.permissions.find? (fun p => p.username == username) with
    | none =>
      have hrole : resolvedRole (.ok (some document)) username = "none" := by
        simp [resolvedRole, getUserRole, ho, hf]
      refine ⟨?_, fun h => absurd h ho⟩
      rw [hrole]
      rcases ha with rfl | rfl | rfl | rfl <;> simp [checkPermission, authorize, ho, hf]
    | some p =>
      have hrole : resolvedRole (.ok (some document)) username = p.role := by
        simp [resolvedRole, getUserRole, ho, hf]
      refine ⟨?_, fun h => absurd h ho⟩
      rw [hrole] at hr ⊢
      rcases ha with rfl | rfl | rfl | rfl <;>
        rcases hr with h | h | h | h <;>
          simp [checkPermission, authorize, ho, hf, h]

/-- C7.  When a document operation arrives from a (connected) participant
whose permission check denies `write`, the handler replies with exactly
one error message to that participant, the CRDT document states (hence
every document's characters, version and history) are left untouched,
and no broadcast is emitted. -/
theorem denied_mutate_error_only_no_state_change (gen : Int → String)
    (docs : String → DocLookup) (st : SocketState) (clientId opType : String)
    (position : Int) (text : List Char) (client : Client) (documentId : String)
    (hc : lookupEntry st.clients clientId = some client)
    (hd : client.documentId = some documentId)
    (hconn : client.connected = true)
    (hperm : checkPermission (docs documentId) client.username "write" = false) :
    handleDocumentOperation gen docs st clientId opType position text
      = (st, [OutMsg.errorTo clientId "Insufficient permissions to edit document"]) := by
  simp [handleDocumentOperation, hc, hd, hperm, sendError, hconn]

/-- Witness for C7: a `viewer` attempting a mutate on a document owned by
someone else is answered with the error alone and the state is kept. -/
theorem denied_mutate_error_only_no_state_change_witness :
    handleDocumentOperation gen0 (fun _ => .ok (some ⟨"alice", [⟨"bob", "viewer"⟩]⟩))
      ⟨[("c1", ⟨"bob", some "d1", true⟩)], [("d1", ["c1"])],
        [("d1", initializeDocument gen0 none ['h', 'i'])]⟩ "c1" "insert" 0 ['x']
      = (⟨[("c1", ⟨"bob", some "d1", true⟩)], [("d1", ["c1"])],
          [("d1", initializeDocument gen0 none ['h', 'i'])]⟩,
         [OutMsg.errorTo "c1" "Insufficient permissions to edit document"]) :=
  denied_mutate_error_only_no_state_change gen0
    (fun _ => .ok (some ⟨"alice", [⟨"bob", "viewer"⟩]⟩))
    ⟨[("c1", ⟨"bob", some "d1", true⟩)], [("d1", ["c1"])],
      [("d1", initializeDocument gen0 none ['h', 'i'])]⟩ "c1" "insert" 0 ['x']
    ⟨"bob", some "d1", true⟩ "d1" (by decide) rfl rfl (by decide)

/-- The shared history-append step keeps the log bounded by 50 and the
cursor strictly inside the log. -/
theorem recordHistory_wf (hist : List (List Char)) (idx : Nat) (c : List Char)
    (hidx : idx < hist.length) (hlen : hist.length ≤ 50) :
    (recordHistory hist idx c).2 < (recordHistory hist idx c).1.length
    ∧ (recordHistory hist idx c).1.length ≤ 50 := by
  have ht : (hist.take (idx + 1)).length = idx + 1 := by
    rw [List.length_take]; omega
  have ht2 : (hist.take (idx + 1) ++ [c]).length = idx + 2 := by
    simp [ht]
  unfold recordHistory
  dsimp only
  split_ifs with hA hB <;> dsimp only <;>
    simp only [List.length_drop, ht, ht2] <;> omega

/-- C6.  Along every sequence of engine operations the history log stays
at 50 entries or fewer with a valid cursor; appending the snapshot equal
to the entry at the cursor is suppressed (the log is merely truncated at
the cursor); and appending to a full log whose cursor is at the tail
drops the oldest entry from the front and leaves the cursor at the new
tail. -/
theorem history_bounded (gen : Int → String) :
    (∀ st : Option DocState, Reachable gen st →
      ∀ s : DocState, st = some s →
        s.history.length ≤ 50 ∧ s.historyIndex < s.history.length)
    ∧ (∀ (hist : List (List Char)) (idx : Nat) (c : List Char),
        idx < hist.length → hist.get? idx = some c →
        recordHistory hist idx c = (hist.take (idx + 1), idx))
    ∧ (∀ (hist : List (List Char)) (c : List Char),
        hist.length = 50 → hist.get? 49 ≠ some c →
        recordHistory hist 49 c = (hist.drop 1 ++ [c], 49)) := by
  refine ⟨?_, ?_, ?_⟩
  · intro st h
    induction h with
    | empty => intro s hs; cases hs
    | initStep st t hst ih =>
      intro s hs
      cases st with
      | some s0 => exact ih s (by simpa [initializeDocument] using hs)
      | none =>
        cases hs
        constructor <;> simp [initializeDocument]
    | applyStep st op pos t hst ih =>
      intro s hs
      cases hs
      have hstate : (initializeDocument gen st []).history.length ≤ 50
          ∧ (initializeDocument gen st []).historyIndex
              < (initializeDocument gen st []).history.length := by
        cases st with
        | none => constructor <;> simp [initializeDocument]
        | some s0 => simpa [initializeDocument] using ih s0 rfl
      have hr := recordHistory_wf (initializeDocument gen st []).history
        (initializeDocument gen st []).historyIndex
        ((applyOperation gen st op pos t).2.1) hstate.2 hstate.1
      exact ⟨hr.2, hr.1⟩
    | setStep st t b hst ih =>
      intro s hs
      cases st with
      | none =>
        cases hs
        constructor <;> simp [setContent, initializeDocument]
      | some s0 =>
        cases hs
        have h0 := ih s0 rfl
        cases b with
        | false => simpa [setContent] using h0
        | true =>
          have hr := recordHistory_wf s0.history s0.historyIndex t h0.2 h0.1
          simp only [setContent]
          exact ⟨hr.2, hr.1⟩
    | undoStep st hst ih =>
      intro s hs
      cases st with
      | none => cases hs
      | some s0 =>
        have h0 := ih s0 rfl
        by_cases h : s0.historyIndex = 0
        · rw [show (undo gen (some s0)).1 = some s0 by simp [undo, h]] at hs
          cases hs
          exact h0
        · rw [show (undo gen (some s0)).1
              = some { characters := stringToCRDT gen ((s0.history.get? (s0.historyIndex - 1)).getD [])
                       version := s0.version + 1
                       history := s0.history
                       historyIndex := s0.historyIndex - 1 } by simp [undo, h]] at hs
          cases hs
          exact ⟨h0.1, by show s0.historyIndex - 1 < s0.history.length; omega⟩
    | redoStep st hst ih =>
      intro s hs
      cases st with
      | none => cases hs
      | some s0 =>
        have h0 := ih s0 rfl
        by_cases h : s0.history.length ≤ s0.historyIndex + 1
        · rw [show (redo gen (some s0)).1 = some s0 by simp [redo, h]] at hs
          cases hs
          exact h0
        · rw [show (redo gen (some s0)).1
              = some { characters := stringToCRDT gen ((s0.history.get? (s0.historyIndex + 1)).getD [])
                       version := s0.version + 1
                       history := s0.history
                       historyIndex := s0.historyIndex + 1 } by simp [redo, h]] at hs
          cases hs
          exact ⟨h0.1, by show s0.historyIndex + 1 < s0.history.length; omega⟩
    | clearStep st hst ih => intro s hs; cases hs
  · intro hist idx c hidx hget
    unfold recordHistory
    rw [if_pos ((List.get?_take (by omega)).trans hget)]
  · intro hist c h50 hne
    have htake : hist.take (49 + 1) = hist := List.take_of_length_le (by omega)
    unfold recordHistory
    dsimp only
    rw [htake, if_neg hne, if_pos (by simp [h50])]
    have hlen : (hist ++ [c]).length = 51 := by simp [h50]
    have h51 : (51 : Nat) - 50 = 1 := rfl
    rw [hlen, h51, List.drop_append_of_le_length (by omega)]
    simp [List.length_append, List.length_drop, h50]

/-- Witness for C6: a freshly initialized session is within bounds; a
duplicate append is suppressed; an append to a full log drops the head. -/
theorem history_bounded_witness :
    ((initializeDocument gen0 none ['a']).history.length ≤ 50
      ∧ (initializeDocument gen0 none ['a']).historyIndex
          < (initializeDocument gen0 none ['a']).history.length)
    ∧ recordHistory [['a']] 0 ['a'] = ([['a']], 0)
    ∧ recordHistory (List.replicate 50 ['a']) 49 ['b']
        = ((List.replicate 50 ['a']).drop 1 ++ [['b']], 49) :=
  ⟨(history_bounded gen0).1 (some (initializeDocument gen0 none ['a']))
      (Reachable.initStep none ['a'] Reachable.empty) (initializeDocument gen0 none ['a']) rfl,
   (history_bounded gen0).2.1 [['a']] 0 ['a'] (by decide) (by decide),
   (history_bounded gen0).2.2 (List.replicate 50 ['a']) ['b'] (by decide) (by decide)⟩

/-- Witness for C4: an `editor` grant asking for `write` on a document
owned by someone else. -/
theorem checkPermission_matches_authorize_witness :
    checkPermission (.ok (some ⟨"alice", [⟨"bob", "editor"⟩]⟩)) "bob" "write"
      = authorize (resolvedRole (.ok (some ⟨"alice", [⟨"bob", "editor"⟩]⟩)) "bob") "write"
    ∧ (PermDoc.owner ⟨"alice", [⟨"bob", "editor"⟩]⟩ = "bob" →
        checkPermission (.ok (some ⟨"alice", [⟨"bob", "editor"⟩]⟩)) "bob" "write" = true) :=
  checkPermission_matches_authorize ⟨"alice", [⟨"bob", "editor"⟩]⟩ "bob" "write"
    (by decide) (by decide)

end RTEditor
